import Mathlib

/-!
Verification of the linnix event-ingestion, lineage and rule-engine pipeline.

This file gives a shallow embedding, in Lean 4, of the core data structures
and operations of the linnix daemon (`cognitod`) and its kernel producer
(`linnix-ai-ebpf`), translated from the Rust sources:

  * `cognitod/src/alerts.rs`    — severity parsing, rule detectors,
    cooldown/dedup in `emit_alert`, alert JSON records;
  * `cognitod/src/runtime/lineage.rs` — the bounded TTL lineage cache;
  * `cognitod/src/memory/store.rs`    — the recent-event memory;
  * `linnix-ai-ebpf-ebpf/src/program.rs` — per-task CPU sampling and
    block-I/O event derivation.

Machine integers (`u64`, `u16`, `u32`) are modelled as `Nat` with explicit
saturation/wrap handling exactly where the source has it.  `Instant` values
are modelled as monotone nanosecond counts (`Nat`); Rust's
`Instant::duration_since` saturates at zero, which coincides with `Nat`
subtraction.  Hash maps (`std::collections::HashMap`) are modelled as
association lists with unique keys, with `insert` replacing the value of an
existing key in place (preserving length, matching `HashMap::len`).
-/

namespace Linnix

/-! ## Association-list model of `HashMap` -/

/-- `HashMap::get`: the value stored for key `k`, if any. -/
def lookupE {κ α : Type} [BEq κ] (es : List (κ × α)) (k : κ) : Option α :=
  (es.find? (fun e => e.1 == k)).map Prod.snd

/-- `HashMap::remove`: drop the entry for key `k`. -/
def eraseE {κ α : Type} [BEq κ] (es : List (κ × α)) (k : κ) : List (κ × α) :=
  es.filter (fun e => !(e.1 == k))

/-- `HashMap::insert`: replace the value for an existing key in place,
otherwise append a fresh entry. -/
def insertE {κ α : Type} [BEq κ] (es : List (κ × α)) (k : κ) (v : α) :
    List (κ × α) :=
  if (lookupE es k).isSome then
    es.map (fun e => if e.1 == k then (k, v) else e)
  else
    es ++ [(k, v)]

section AssocLemmas

variable {κ α : Type} [BEq κ]

theorem lookupE_nil (k : κ) : lookupE ([] : List (κ × α)) k = none := rfl

theorem lookupE_cons_eq {e : κ × α} {k : κ} (es : List (κ × α))
    (h : (e.1 == k) = true) : lookupE (e :: es) k = some e.2 := by
  simp [lookupE, List.find?_cons, h]

theorem lookupE_cons_ne {e : κ × α} {k : κ} (es : List (κ × α))
    (h : (e.1 == k) = false) : lookupE (e :: es) k = lookupE es k := by
  simp [lookupE, List.find?_cons, h]

theorem lookupE_mem [LawfulBEq κ] {es : List (κ × α)} {k : κ} {v : α}
    (h : lookupE es k = some v) : (k, v) ∈ es := by
  induction es with
  | nil => simp [lookupE] at h
  | cons e es ih =>
    cases hk : (e.1 == k) with
    | true =>
      rw [lookupE_cons_eq es hk] at h
      obtain ⟨k1, v1⟩ := e
      obtain rfl : v1 = v := by injection h
      obtain rfl : k1 = k := by simpa using hk
      exact List.mem_cons_self _ _
    | false =>
      rw [lookupE_cons_ne es hk] at h
      exact List.mem_cons_of_mem _ (ih h)

theorem mem_lookupE [LawfulBEq κ] {es : List (κ × α)} {k : κ} {v : α}
    (hnd : (es.map Prod.fst).Nodup) (h : (k, v) ∈ es) :
    lookupE es k = some v := by
  induction es with
  | nil => simp at h
  | cons e es ih =>
    rw [List.map_cons, List.nodup_cons] at hnd
    rcases List.mem_cons.mp h with rfl | hmem
    · exact lookupE_cons_eq es (by simp)
    · have hne : (e.1 == k) = false := by
        rw [beq_eq_false_iff_ne]
        intro hk
        exact hnd.1 (hk ▸ List.mem_map_of_mem Prod.fst hmem)
      rw [lookupE_cons_ne es hne]
      exact ih hnd.2 hmem

theorem lookupE_isSome_of_mem [LawfulBEq κ] {es : List (κ × α)} {k : κ} {v : α}
    (h : (k, v) ∈ es) : (lookupE es k).isSome := by
  induction es with
  | nil => simp at h
  | cons e es ih =>
    cases hk : (e.1 == k) with
    | true => rw [lookupE_cons_eq es hk]; rfl
    | false =>
      rw [lookupE_cons_ne es hk]
      rcases List.mem_cons.mp h with rfl | hmem
      · simp at hk
      · exact ih hmem

theorem lookupE_erase_ne [LawfulBEq κ] {es : List (κ × α)} {k j : κ}
    (h : k ≠ j) : lookupE (eraseE es j) k = lookupE es k := by
  induction es with
  | nil => rfl
  | cons e es ih =>
    cases hj : (e.1 == j) with
    | true =>
      have hek : (e.1 == k) = false := by
        rw [beq_eq_false_iff_ne]
        intro hk
        exact h (hk ▸ eq_of_beq hj)
      simp only [eraseE, List.filter_cons, hj, Bool.not_true, if_neg,
        Bool.false_eq_true, not_false_iff]
      rw [lookupE_cons_ne es hek]
      exact ih
    | false =>
      simp only [eraseE, List.filter_cons, hj, Bool.not_false, if_pos]
      cases hek : (e.1 == k) with
      | true => rw [lookupE_cons_eq _ hek, lookupE_cons_eq es hek]
      | false => rw [lookupE_cons_ne _ hek, lookupE_cons_ne es hek]; exact ih

theorem lookupE_erase_self (es : List (κ × α)) (k : κ) :
    lookupE (eraseE es k) k = none := by
  have : (eraseE es k).find? (fun e => e.1 == k) = none := by
    rw [List.find?_eq_none]
    intro e he
    have := List.of_mem_filter he
    simpa using this
  simp [lookupE, this]

theorem eraseE_length_le (es : List (κ × α)) (k : κ) :
    (eraseE es k).length ≤ es.length :=
  List.length_filter_le _ es

theorem eraseE_length_of_mem {es : List (κ × α)} {k : κ}
    (h : (lookupE es k).isSome) :
    (eraseE es k).length + 1 ≤ es.length := by
  induction es with
  | nil => simp [lookupE] at h
  | cons e es ih =>
    cases hk : (e.1 == k) with
    | true =>
      have h1 := List.length_filter_le (fun e : κ × α => !(e.1 == k)) es
      simp only [eraseE, List.filter_cons, hk, Bool.not_true, if_neg,
        Bool.false_eq_true, not_false_iff, List.length_cons]
      omega
    | false =>
      rw [lookupE_cons_ne es hk] at h
      have := ih h
      simp only [eraseE, List.filter_cons, hk, Bool.not_false, if_pos,
        List.length_cons] at *
      omega

theorem eraseE_keys_sublist (es : List (κ × α)) (k : κ) :
    ((eraseE es k).map Prod.fst).Sublist (es.map Prod.fst) :=
  (List.filter_sublist es).map Prod.fst

theorem eraseE_nodup {es : List (κ × α)} (k : κ)
    (hnd : (es.map Prod.fst).Nodup) : ((eraseE es k).map Prod.fst).Nodup :=
  hnd.sublist (eraseE_keys_sublist es k)

theorem lookupE_map_replace_self [LawfulBEq κ] {es : List (κ × α)} {k : κ}
    (v : α) (h : (lookupE es k).isSome) :
    lookupE (es.map (fun e => if e.1 == k then (k, v) else e)) k = some v := by
  induction es with
  | nil => simp [lookupE] at h
  | cons e es ih =>
    cases hk : (e.1 == k) with
    | true =>
      simp only [List.map_cons, hk, if_pos]
      exact lookupE_cons_eq _ (by simp)
    | false =>
      rw [lookupE_cons_ne es hk] at h
      simp only [List.map_cons, hk, if_neg, Bool.false_eq_true, not_false_iff]
      rw [lookupE_cons_ne _ hk]
      exact ih h

theorem lookupE_map_replace_ne [LawfulBEq κ] (es : List (κ × α)) {k j : κ}
    (v : α) (h : j ≠ k) :
    lookupE (es.map (fun e => if e.1 == k then (k, v) else e)) j =
      lookupE es j := by
  induction es with
  | nil => rfl
  | cons e es ih =>
    cases hk : (e.1 == k) with
    | true =>
      have hkj : ((k : κ) == j) = false := by
        rw [beq_eq_false_iff_ne]; exact fun hkj => h hkj.symm
      have hej : (e.1 == j) = false := by
        rw [beq_eq_false_iff_ne]
        intro hej
        exact h (hej ▸ eq_of_beq hk)
      simp only [List.map_cons, hk, if_pos]
      rw [lookupE_cons_ne _ hkj, lookupE_cons_ne es hej]
      exact ih
    | false =>
      simp only [List.map_cons, hk, if_neg, Bool.false_eq_true, not_false_iff]
      cases hej : (e.1 == j) with
      | true => rw [lookupE_cons_eq _ hej, lookupE_cons_eq es hej]
      | false => rw [lookupE_cons_ne _ hej, lookupE_cons_ne es hej]; exact ih

theorem lookupE_append_left {es es' : List (κ × α)} {k : κ} {v : α}
    (h : lookupE es k = some v) : lookupE (es ++ es') k = some v := by
  induction es with
  | nil => simp [lookupE] at h
  | cons e es ih =>
    cases hk : (e.1 == k) with
    | true =>
      rw [lookupE_cons_eq es hk] at h
      rw [List.cons_append, lookupE_cons_eq _ hk]
      exact h
    | false =>
      rw [lookupE_cons_ne es hk] at h
      rw [List.cons_append, lookupE_cons_ne _ hk]
      exact ih h

theorem lookupE_append_right {es es' : List (κ × α)} {k : κ}
    (h : lookupE es k = none) : lookupE (es ++ es') k = lookupE es' k := by
  induction es with
  | nil => rfl
  | cons e es ih =>
    cases hk : (e.1 == k) with
    | true => rw [lookupE_cons_eq es hk] at h; exact absurd h (by simp)
    | false =>
      rw [lookupE_cons_ne es hk] at h
      rw [List.cons_append, lookupE_cons_ne _ hk]
      exact ih h

theorem lookupE_insert_self [LawfulBEq κ] (es : List (κ × α)) (k : κ) (v : α) :
    lookupE (insertE es k v) k = some v := by
  unfold insertE
  by_cases h : (lookupE es k).isSome
  · rw [if_pos h]
    exact lookupE_map_replace_self v h
  · rw [if_neg h]
    rw [lookupE_append_right (by cases hv : lookupE es k <;> simp_all)]
    exact lookupE_cons_eq _ (by simp)

theorem lookupE_insert_ne [LawfulBEq κ] (es : List (κ × α)) {k j : κ} (v : α)
    (h : j ≠ k) : lookupE (insertE es k v) j = lookupE es j := by
  unfold insertE
  by_cases hs : (lookupE es k).isSome
  · rw [if_pos hs]
    exact lookupE_map_replace_ne es v h
  · rw [if_neg hs]
    cases hv : lookupE es j with
    | some w => exact lookupE_append_left hv
    | none =>
      rw [lookupE_append_right hv]
      rw [lookupE_cons_ne _ (by rw [beq_eq_false_iff_ne]; exact fun hkj => h hkj.symm)]
      rfl

theorem insertE_keys_of_present [LawfulBEq κ] {es : List (κ × α)} {k : κ}
    (v : α) (h : (lookupE es k).isSome) :
    (insertE es k v).map Prod.fst = es.map Prod.fst := by
  unfold insertE
  rw [if_pos h, List.map_map]
  apply List.map_congr_left
  intro e _
  cases hk : (e.1 == k) with
  | true => simp [Function.comp, hk, eq_of_beq hk]
  | false => simp [Function.comp, hk]

theorem insertE_nodup [LawfulBEq κ] {es : List (κ × α)} {k : κ} (v : α)
    (hnd : (es.map Prod.fst).Nodup) :
    ((insertE es k v).map Prod.fst).Nodup := by
  by_cases h : (lookupE es k).isSome
  · rw [insertE_keys_of_present v h]
    exact hnd
  · unfold insertE
    rw [if_neg h, List.map_append, List.map_cons, List.map_nil]
    rw [List.nodup_append]
    refine ⟨hnd, List.nodup_singleton k, ?_⟩
    intro a ha
    simp only [List.mem_singleton]
    intro hak
    subst hak
    obtain ⟨⟨k', v'⟩, hmem, hk⟩ := List.mem_map.mp ha
    simp only at hk
    subst hk
    exact h (lookupE_isSome_of_mem hmem)

theorem insertE_length_of_present {es : List (κ × α)} {k : κ} (v : α)
    (h : (lookupE es k).isSome) : (insertE es k v).length = es.length := by
  unfold insertE
  simp [h]

theorem insertE_length_of_absent {es : List (κ × α)} {k : κ} (v : α)
    (h : ¬ (lookupE es k).isSome) :
    (insertE es k v).length = es.length + 1 := by
  unfold insertE
  simp [h]

end AssocLemmas

/-! ## Severity (`cognitod/src/alerts.rs`, lines 20–56)

`Severity` derives `Serialize` with no rename attribute, so serde's derived
serializer emits the *capitalized variant name* as the JSON string.  The
lowercase strings appear only in `Severity::as_str`, used for log lines. -/

inductive Severity where
  | Info
  | Low
  | Medium
  | High
deriving DecidableEq, Repr

/-- Character-wise lowercasing (same function as `String.toLower`, stated
over the character list so that it evaluates by kernel reduction). -/
def lowercase (s : String) : String := ⟨s.data.map Char.toLower⟩

/-- `Severity::from_str`.  Rust lowercases with `str::to_lowercase`
(Unicode); since the match targets are pure ASCII and no non-ASCII
character has a single-character lowercase mapping into the letters of
"low"/"medium"/"high", ASCII lowercasing is an exact model on all
inputs. -/
def Severity.from_str (s : String) : Severity :=
  let l := lowercase s
  if l = "low" then .Low
  else if l = "medium" then .Medium
  else if l = "high" then .High
  else .Info

/-- `Severity::as_str` (lowercase, used in log output). -/
def Severity.as_str : Severity → String
  | .Info => "info"
  | .Low => "low"
  | .Medium => "medium"
  | .High => "high"

/-- The string serde's derived `Serialize` emits for a unit variant of
`Severity`: the variant name itself (no `rename_all` attribute present). -/
def Severity.serdeName : Severity → String
  | .Info => "Info"
  | .Low => "Low"
  | .Medium => "Medium"
  | .High => "High"

/-- `impl Deserialize for Severity`: deserialize a `String`, then apply
`Severity::from_str`; the `Ok` is unconditional, so no string is rejected. -/
def deserializeSeverity (s : String) : Except String Severity :=
  .ok (Severity.from_str s)

/-! ## Alert JSON records (`cognitod/src/alerts.rs`, lines 58–64, 433–444)

`emit_alert` appends `serde_json::to_string(&alert)` plus a newline
(`writeln!`) to the alerts file.  The derived serializer writes the struct
fields in declaration order (rule, severity, message, host); strings are
escaped with serde_json's escape table. -/

structure Alert where
  rule : String
  severity : Severity
  message : String
  host : String

/-- One hexadecimal digit, for serde_json's `\u00XX` control escapes. -/
def hexDigit (n : Nat) : Char := "0123456789abcdef".data.getD n '0'

/-- serde_json's escape of one character inside a JSON string literal. -/
def escapeChar (c : Char) : List Char :=
  if c = '"' then ['\\', '"']
  else if c = '\\' then ['\\', '\\']
  else if c = '\x08' then ['\\', 'b']
  else if c = '\x0c' then ['\\', 'f']
  else if c = '\n' then ['\\', 'n']
  else if c = '\r' then ['\\', 'r']
  else if c = '\t' then ['\\', 't']
  else if c.toNat < 0x20 then
    ['\\', 'u', '0', '0', hexDigit (c.toNat / 16), hexDigit (c.toNat % 16)]
  else [c]

def jsonEscapeList : List Char → List Char
  | [] => []
  | c :: rest => escapeChar c ++ jsonEscapeList rest

def jsonEscape (s : String) : String := ⟨jsonEscapeList s.data⟩

/-- `serde_json::to_string(&alert)`: the single-line JSON object. -/
def alertJson (a : Alert) : String :=
  "\x7b\"rule\":\"" ++ jsonEscape a.rule ++
    "\",\"severity\":\"" ++ a.severity.serdeName ++
    "\",\"message\":\"" ++ jsonEscape a.message ++
    "\",\"host\":\"" ++ jsonEscape a.host ++ "\"\x7d"

/-- The record appended to the alerts file: the JSON object plus the
newline added by `writeln!`. -/
def alertRecordLine (a : Alert) : String := alertJson a ++ "\n"

theorem hexDigit_ne_newline (n : Nat) : hexDigit n ≠ '\n' := by
  unfold hexDigit
  rcases n with _|_|_|_|_|_|_|_|_|_|_|_|_|_|_|_|n
  all_goals first
  | decide
  | · have hlen : ("0123456789abcdef".data).length = 16 := by decide
      rw [List.getD_eq_default _ _ (by rw [hlen]; omega)]
      decide

theorem newline_not_mem_escapeChar (c : Char) : '\n' ∉ escapeChar c := by
  unfold escapeChar
  split_ifs with h1 h2 h3 h4 h5 h6 h7 h8
  · decide
  · decide
  · decide
  · decide
  · decide
  · decide
  · decide
  · intro hmem
    simp only [List.mem_cons, List.not_mem_nil, or_false] at hmem
    rcases hmem with h | h | h | h | h | h
    · exact absurd h (by decide)
    · exact absurd h (by decide)
    · exact absurd h (by decide)
    · exact absurd h (by decide)
    · exact hexDigit_ne_newline _ h.symm
    · exact hexDigit_ne_newline _ h.symm
  · intro hmem
    simp only [List.mem_cons, List.not_mem_nil, or_false] at hmem
    exact h5 hmem.symm

theorem newline_not_mem_jsonEscapeList (l : List Char) :
    '\n' ∉ jsonEscapeList l := by
  induction l with
  | nil => simp [jsonEscapeList]
  | cons c rest ih =>
    simp only [jsonEscapeList, List.mem_append]
    rintro (h | h)
    · exact newline_not_mem_escapeChar c h
    · exact ih h

/-! ### C10 — severity parsing is total -/

/-- **C10.** Parsing a rule's severity is total and never fails: for every
input string, deserialization succeeds, mapping "low", "medium" and "high"
case-insensitively to their severities and any other string — misspellings
included — silently to `Info`. -/
theorem severity_deserialize_total :
    (∀ s : String, ∃ v, deserializeSeverity s = .ok v) ∧
    (∀ s : String, lowercase s = "low" → deserializeSeverity s = .ok .Low) ∧
    (∀ s : String, lowercase s = "medium" → deserializeSeverity s = .ok .Medium) ∧
    (∀ s : String, lowercase s = "high" → deserializeSeverity s = .ok .High) ∧
    (∀ s : String, lowercase s ≠ "low" → lowercase s ≠ "medium" →
      lowercase s ≠ "high" → deserializeSeverity s = .ok .Info) ∧
    deserializeSeverity "HiGh" = .ok .High ∧
    deserializeSeverity "hgih" = .ok .Info ∧
    deserializeSeverity "completely arbitrary text" = .ok .Info := by
  refine ⟨fun s => ⟨_, rfl⟩, ?_, ?_, ?_, ?_, rfl, rfl, rfl⟩
  · intro s h
    simp [deserializeSeverity, Severity.from_str, h]
  · intro s h
    simp [deserializeSeverity, Severity.from_str, h]
  · intro s h
    simp [deserializeSeverity, Severity.from_str, h]
  · intro s h1 h2 h3
    simp [deserializeSeverity, Severity.from_str, h1, h2, h3]

/-- Witness for C10 at concrete inputs. -/
theorem severity_deserialize_total_witness :
    deserializeSeverity "LOW" = .ok .Low ∧
    deserializeSeverity "sev-typo" = .ok .Info :=
  ⟨severity_deserialize_total.2.1 "LOW" (by decide),
   severity_deserialize_total.2.2.2.2.1 "sev-typo"
     (by decide) (by decide) (by decide)⟩

/-! ### C6 — alerts-file record format -/

/-- **C6 (counterexample).** The claim says the severity field is written
as a lowercase string (e.g. "high"); the derived serializer actually writes
the capitalized variant name: the record for a `High` alert contains
`"severity":"High"`, and `"High" ≠ "high"`. -/
theorem alertRecord_severity_not_lowercase :
    alertRecordLine ⟨"r1", .High, "m", "h"⟩ =
      "\x7b\"rule\":\"r1\",\"severity\":\"High\",\"message\":\"m\",\"host\":\"h\"\x7d\n" ∧
    Severity.serdeName .High = "High" ∧ Severity.serdeName .High ≠ "high" := by
  refine ⟨by decide, rfl, by decide⟩

/-- **C6 (amended).** Every record appended to the alerts file is one JSON
object per line with fields rule, severity, message, host in that order,
with a trailing newline per record; the severity field is serialized as the
*capitalized* variant name ("Info", "Low", "Medium", "High"), not
lowercase.  The object body contains no raw newline (serde_json escapes
them), so each record really is a single line. -/
theorem alertRecord_single_line_fields :
    (∀ a : Alert, alertRecordLine a = alertJson a ++ "\n") ∧
    (∀ a : Alert, '\n' ∉ (alertJson a).data) ∧
    Severity.serdeName .Info = "Info" ∧ Severity.serdeName .Low = "Low" ∧
    Severity.serdeName .Medium = "Medium" ∧
    Severity.serdeName .High = "High" := by
  refine ⟨fun a => rfl, ?_, rfl, rfl, rfl, rfl⟩
  intro a
  have hesc : ∀ s : String, (jsonEscape s).data = jsonEscapeList s.data :=
    fun s => rfl
  simp only [alertJson, String.data_append, hesc, List.mem_append]
  rintro ((((((((h | h) | h) | h) | h) | h) | h) | h) | h)
  · exact absurd h (by decide)
  · exact newline_not_mem_jsonEscapeList _ h
  · exact absurd h (by decide)
  · rcases hs : a.severity <;> rw [hs] at h <;> exact absurd h (by decide)
  · exact absurd h (by decide)
  · exact newline_not_mem_jsonEscapeList _ h
  · exact absurd h (by decide)
  · exact newline_not_mem_jsonEscapeList _ h
  · exact absurd h (by decide)

/-- Witness for C6's amended theorem at a concrete alert whose message
contains a raw newline. -/
theorem alertRecord_single_line_fields_witness :
    '\n' ∉ (alertJson ⟨"r", .Low, "line1\nline2", "h"⟩).data :=
  alertRecord_single_line_fields.2.1 ⟨"r", .Low, "line1\nline2", "h"⟩

/-! ## Cooldown and deduplication (`RuleEngine::emit_alert`, alerts.rs 396–448) -/

/-- The cooldown actually armed by `emit_alert`, in nanoseconds: a
configured cooldown of 0 seconds becomes a 100 ms floor, otherwise
`Duration::from_secs(cooldown)`. -/
def cooldownNs (cooldownSecs : Nat) : Nat :=
  if cooldownSecs = 0 then 100000000 else cooldownSecs * 1000000000

/-- The cooldown gate of `emit_alert`: with `key = "{host}:{rule}"`, if
`active[key]` exists and `now ≤ it`, the alert is suppressed; otherwise
`active[key] = now + cooldown` is recorded and the alert goes out.
Returns (emitted?, updated `active` map). -/
def emit_alert_gate (active : List (String × Nat)) (key : String)
    (now cd : Nat) : Bool × List (String × Nat) :=
  match lookupE active key with
  | some u =>
    if now ≤ u then (false, active) else (true, insertE active key (now + cd))
  | none => (true, insertE active key (now + cd))

/-- A run of `emit_alert` calls: each trace element is (key, time of the
call); `cdOf key` is the rule's configured cooldown in seconds.  Returns
the (key, time) pairs of the alerts actually emitted, in order. -/
def runAlerts (cdOf : String → Nat) (active : List (String × Nat)) :
    List (String × Nat) → List (String × Nat)
  | [] => []
  | (key, now) :: rest =>
    let step := emit_alert_gate active key now (cooldownNs (cdOf key))
    if step.1 then (key, now) :: runAlerts cdOf step.2 rest
    else runAlerts cdOf step.2 rest

/-- Every alert emitted after the map already holds a deadline for its key
is emitted strictly after that deadline. -/
theorem runAlerts_after (cdOf : String → Nat) :
    ∀ (trace : List (String × Nat)) (active : List (String × Nat))
      (e : String × Nat), e ∈ runAlerts cdOf active trace →
      ∀ u, lookupE active e.1 = some u → u < e.2 := by
  intro trace
  induction trace with
  | nil => intro active e he; simp [runAlerts] at he
  | cons call rest ih =>
    obtain ⟨key, now⟩ := call
    intro active e he u hu
    rw [runAlerts] at he
    cases hl : lookupE active key with
    | some w =>
      by_cases hle : now ≤ w
      · simp only [emit_alert_gate, hl, hle, if_pos, if_neg,
          Bool.false_eq_true, not_false_iff] at he
        exact ih active e he u hu
      · simp only [emit_alert_gate, hl, hle, if_neg, if_pos,
          not_false_iff] at he
        rcases List.mem_cons.mp he with rfl | he'
        · simp only at hu
          rw [hl] at hu
          obtain rfl : w = u := by injection hu
          omega
        · by_cases hek : e.1 = key
          · have h2 : lookupE (insertE active key (now + cooldownNs (cdOf key))) e.1 =
                some (now + cooldownNs (cdOf key)) := by
              rw [hek]; exact lookupE_insert_self ..
            have h3 := ih _ e he' _ h2
            rw [hek, hl] at hu
            obtain rfl : w = u := by injection hu
            omega
          · have h2 : lookupE (insertE active key (now + cooldownNs (cdOf key))) e.1 =
                some u := by
              rw [lookupE_insert_ne _ _ hek]; exact hu
            exact ih _ e he' _ h2
    | none =>
      simp only [emit_alert_gate, hl, if_pos] at he
      rcases List.mem_cons.mp he with rfl | he'
      · simp only at hu; rw [hl] at hu; cases hu
      · by_cases hek : e.1 = key
        · rw [hek, hl] at hu
          cases hu
        · have h2 : lookupE (insertE active key (now + cooldownNs (cdOf key))) e.1 =
              some u := by
            rw [lookupE_insert_ne _ _ hek]; exact hu
          exact ih _ e he' _ h2

/-- Emitted alerts with the same key are separated by more than the armed
cooldown, from any starting `active` map. -/
theorem runAlerts_pairwise (cdOf : String → Nat) :
    ∀ (trace : List (String × Nat)) (active : List (String × Nat)),
      List.Pairwise
        (fun a b => a.1 = b.1 → a.2 + cooldownNs (cdOf a.1) < b.2)
        (runAlerts cdOf active trace) := by
  intro trace
  induction trace with
  | nil => intro active; simp [runAlerts]
  | cons call rest ih =>
    obtain ⟨key, now⟩ := call
    intro active
    rw [runAlerts]
    cases hl : lookupE active key with
    | some w =>
      by_cases hle : now ≤ w
      · simp only [emit_alert_gate, hl, hle, if_pos, if_neg,
          Bool.false_eq_true, not_false_iff]
        exact ih active
      · simp only [emit_alert_gate, hl, hle, if_neg, if_pos, not_false_iff]
        refine List.Pairwise.cons ?_ (ih _)
        intro b hb hkey
        have h2 : lookupE (insertE active key (now + cooldownNs (cdOf key))) b.1 =
            some (now + cooldownNs (cdOf key)) := by
          rw [← hkey]; exact lookupE_insert_self ..
        exact runAlerts_after cdOf rest _ b hb _ h2
    | none =>
      simp only [emit_alert_gate, hl, if_pos]
      refine List.Pairwise.cons ?_ (ih _)
      intro b hb hkey
      have h2 : lookupE (insertE active key (now + cooldownNs (cdOf key))) b.1 =
          some (now + cooldownNs (cdOf key)) := by
        rw [← hkey]; exact lookupE_insert_self ..
      exact runAlerts_after cdOf rest _ b hb _ h2

/-! ### C1 — cooldown separation of emitted alerts -/

/-- **C1.** For every emitted alert with a given (host, rule) pair at time
`t`, no other alert with the same (host, rule) key was emitted in the
interval `(t − max(cooldown, 100 ms), t)`: `emit_alert` suppresses a fire
when `active["{host}:{rule}"]` exists and `now ≤ it`, and otherwise records
`active[key] = now + cooldown`, where a configured cooldown of 0 is
replaced by a 100 ms floor.  Stated here as: the armed cooldown equals
`max(cooldown · 1e9 ns, 1e8 ns)`; suppression happens exactly when the
deadline is live; and any two emitted alerts with the same key are
separated by more than that interval (so neither lies in the other's
exclusion window). -/
theorem emit_alert_cooldown_separation :
    (∀ c : Nat, cooldownNs c = max (c * 1000000000) 100000000) ∧
    (∀ active key now cd,
      (emit_alert_gate active key now cd).1 = false ↔
        ∃ u, lookupE active key = some u ∧ now ≤ u) ∧
    (∀ active key now cd, (emit_alert_gate active key now cd).1 = true →
      lookupE (emit_alert_gate active key now cd).2 key = some (now + cd)) ∧
    (∀ (cdOf : String → Nat) (trace : List (String × Nat)),
      List.Pairwise
        (fun a b => a.1 = b.1 →
          a.2 + max (cdOf a.1 * 1000000000) 100000000 < b.2)
        (runAlerts cdOf [] trace)) := by
  have hmax : ∀ c : Nat, cooldownNs c = max (c * 1000000000) 100000000 := by
    intro c
    unfold cooldownNs
    rcases Nat.eq_zero_or_pos c with rfl | hc
    · simp
    · rw [if_neg (by omega)]
      have : 1000000000 ≤ c * 1000000000 := Nat.le_mul_of_pos_left _ hc
      omega
  refine ⟨hmax, ?_, ?_, ?_⟩
  · intro active key now cd
    unfold emit_alert_gate
    cases hl : lookupE active key with
    | some u =>
      by_cases hle : now ≤ u
      · exact iff_of_true (by simp [hle]) ⟨u, rfl, hle⟩
      · refine iff_of_false (by simp [hle]) ?_
        rintro ⟨u', hu', hle'⟩
        obtain rfl : u = u' := by injection hu'
        exact hle hle'
    | none =>
      refine iff_of_false (by simp) ?_
      rintro ⟨u, hu, h2⟩
      cases hu
  · intro active key now cd
    unfold emit_alert_gate
    cases hl : lookupE active key with
    | some u =>
      by_cases hle : now ≤ u
      · simp [hle]
      · simp only [hle, if_neg, not_false_iff]
        intro
        exact lookupE_insert_self ..
    | none =>
      intro
      exact lookupE_insert_self ..
  · intro cdOf trace
    have h := runAlerts_pairwise cdOf trace []
    refine h.imp ?_
    intro a b hab hkey
    rw [← hmax (cdOf a.1)]
    exact hab hkey

/-- Witness for C1: a concrete trace with cooldown 0 — two calls 50 ms
apart, one 200 ms later; the gate and separation evaluate concretely. -/
theorem emit_alert_cooldown_separation_witness :
    (emit_alert_gate [("h:r", 100000000)] "h:r" 50000000 100000000).1 = false ∧
    List.Pairwise
      (fun a b : String × Nat => a.1 = b.1 →
        a.2 + max ((fun _ => 0 : String → Nat) a.1 * 1000000000) 100000000 < b.2)
      (runAlerts (fun _ => 0) []
        [("h:r", 0), ("h:r", 50000000), ("h:r", 200000000)]) :=
  ⟨(emit_alert_cooldown_separation.2.1 [("h:r", 100000000)] "h:r"
      50000000 100000000).mpr ⟨100000000, rfl, by omega⟩,
   emit_alert_cooldown_separation.2.2.2 (fun _ => 0)
     [("h:r", 0), ("h:r", 50000000), ("h:r", 200000000)]⟩

/-! ## Sliding fork window and ForksPerSec (`alerts.rs` 526–556, 564–653) -/

def U64MAX : Nat := 18446744073709551615

/-- `u64::saturating_mul`. -/
def satMul64 (a b : Nat) : Nat := min (a * b) U64MAX

/-- `trim_instant_queue`: pop from the front while
`now.duration_since(front) > keep_for`. -/
def trim_instant_queue (queue : List Nat) (keepFor now : Nat) : List Nat :=
  queue.dropWhile (fun ts => decide (now - ts > keepFor))

/-- `count_recent`: iterate from the back and `take_while` the age is
within the window; return the count. -/
def count_recent (queue : List Nat) (window now : Nat) : Nat :=
  (queue.reverse.takeWhile (fun ts => decide (now - ts ≤ window))).length

/-- The Fork arm of the state update in `on_event`: push `now` onto
`fork_events`, then trim with the engine's fork window. -/
def forkPush (forkEvents : List Nat) (keepForNs now : Nat) : List Nat :=
  trim_instant_queue (forkEvents ++ [now]) keepForNs now

/-- The `Detector::ForksPerSec` arm evaluated on a Fork event after the
state update: count the recent tail over `Duration::from_secs(duration)`
and fire when `count ≥ threshold.saturating_mul(duration).max(threshold)`. -/
def forksPerSecFires (forkEvents : List Nat)
    (keepForNs now threshold duration : Nat) : Bool :=
  let q := forkPush forkEvents keepForNs now
  let count := count_recent q (duration * 1000000000) now
  decide (count ≥ max (satMul64 threshold duration) threshold)

theorem takeWhile_age_pos {window now a : Nat} (l : List Nat)
    (h : now - a ≤ window) :
    (a :: l).takeWhile (fun ts => decide (now - ts ≤ window)) =
      a :: l.takeWhile (fun ts => decide (now - ts ≤ window)) := by
  rw [List.takeWhile_cons]
  simp [h]

theorem takeWhile_age_neg {window now a : Nat} (l : List Nat)
    (h : ¬ now - a ≤ window) :
    (a :: l).takeWhile (fun ts => decide (now - ts ≤ window)) = [] := by
  rw [List.takeWhile_cons]
  simp [h]

/-- On a timestamp-sorted queue, counting the in-window suffix from the
back counts exactly the in-window entries. -/
theorem count_recent_sorted {q : List Nat} {window now : Nat}
    (hs : q.Pairwise (· ≤ ·)) :
    count_recent q window now =
      q.countP (fun ts => decide (now - ts ≤ window)) := by
  induction q using List.reverseRecOn with
  | nil => rfl
  | append_singleton l a ih =>
    rw [List.pairwise_append] at hs
    obtain ⟨hl, -, hcross⟩ := hs
    unfold count_recent at *
    rw [List.reverse_append, List.reverse_singleton, List.countP_append,
      List.countP_singleton, List.singleton_append]
    by_cases hpa : now - a ≤ window
    · rw [takeWhile_age_pos _ hpa, List.length_cons, ih hl]
      simp only [decide_eq_true_eq]
      rw [if_pos hpa]
    · have hzero : l.countP (fun ts => decide (now - ts ≤ window)) = 0 := by
        rw [List.countP_eq_zero]
        intro ts hts
        have hle : ts ≤ a := hcross ts hts a (List.mem_singleton_self a)
        simp only [decide_eq_true_eq]
        omega
      rw [takeWhile_age_neg _ hpa, List.length_nil, hzero]
      simp only [decide_eq_true_eq]
      rw [if_neg hpa]

/-- Dropping entries that a stricter predicate rejects does not change the
in-window count. -/
theorem countP_dropWhile_of_excluded {q : List Nat} {d p : Nat → Bool}
    (h : ∀ a, d a = true → p a = false) :
    (q.dropWhile d).countP p = q.countP p := by
  induction q with
  | nil => rfl
  | cons a t ih =>
    cases hda : d a with
    | true =>
      rw [List.dropWhile_cons_of_pos hda, ih, List.countP_cons, h a hda]
      simp
    | false => rw [List.dropWhile_cons_of_neg (by simp [hda])]

/-! ### C2 — ForksPerSec firing condition -/

/-- **C2.** For every Fork event, a `ForksPerSec{threshold, duration}` rule
fires exactly when the number of fork events (including the new one) whose
age is at most `duration` seconds is `≥ max(threshold, threshold·duration)`;
in particular, with `duration = 0` the target reduces to `threshold`, so a
single fork suffices when `threshold = 1`.  Hypotheses: the queue is
timestamp-sorted and bounded by `now` (Instants are monotone), the engine's
fork window covers the rule's duration (`from_path` takes the max over all
rules), and `threshold·duration` does not overflow `u64` (otherwise the
source saturates). -/
theorem forksPerSec_fires_iff (forkEvents : List Nat)
    (keepForNs now threshold duration : Nat)
    (hs : forkEvents.Pairwise (· ≤ ·))
    (hb : ∀ ts ∈ forkEvents, ts ≤ now)
    (hkeep : duration * 1000000000 ≤ keepForNs)
    (hnof : threshold * duration ≤ U64MAX) :
    (forksPerSecFires forkEvents keepForNs now threshold duration = true ↔
      max threshold (threshold * duration) ≤
        (forkEvents ++ [now]).countP
          (fun ts => decide (now - ts ≤ duration * 1000000000))) ∧
    (duration = 0 → threshold = 1 →
      forksPerSecFires forkEvents keepForNs now threshold duration = true) := by
  have hq : (forkEvents ++ [now]).Pairwise (· ≤ ·) := by
    rw [List.pairwise_append]
    exact ⟨hs, List.pairwise_singleton _ _,
      fun x hx y hy => (List.mem_singleton.mp hy) ▸ hb x hx⟩
  have htrim : (trim_instant_queue (forkEvents ++ [now]) keepForNs now).Pairwise
      (· ≤ ·) :=
    hq.sublist (List.dropWhile_sublist _)
  have hcount : count_recent (forkPush forkEvents keepForNs now)
      (duration * 1000000000) now =
      (forkEvents ++ [now]).countP
        (fun ts => decide (now - ts ≤ duration * 1000000000)) := by
    rw [forkPush, count_recent_sorted htrim]
    apply countP_dropWhile_of_excluded
    intro a ha
    simp only [decide_eq_true_eq] at ha
    simp only [decide_eq_false_iff_not]
    omega
  have hsat : satMul64 threshold duration = threshold * duration := by
    unfold satMul64
    omega
  constructor
  · simp only [forksPerSecFires]
    rw [hcount, hsat]
    simp only [decide_eq_true_eq, ge_iff_le, Nat.max_comm]
  · intro hd ht
    simp only [forksPerSecFires]
    rw [hcount, hsat, hd, ht]
    simp only [Nat.mul_zero, Nat.max_eq_right (Nat.zero_le 1),
      decide_eq_true_eq, ge_iff_le, List.countP_append, List.countP_singleton]
    simp

/-- Witness for C2 at `duration = 0, threshold = 1`: a single fork fires. -/
theorem forksPerSec_fires_iff_witness :
    forksPerSecFires [] 1000000000 5 1 0 = true :=
  (forksPerSec_fires_iff [] 1000000000 5 1 0 List.Pairwise.nil
    (by simp) (by simp) (by simp [U64MAX])).2 rfl rfl

/-! ## Recent-event memory (`cognitod/src/memory/store.rs`)

The struct, fields and signatures are in the source, but the bodies of
`MemoryStore::add` and `MemoryStore::recent` are placeholder comments
("push and prune logic" / "return filtered events"), so the behavior is
modelled from the spec (§4.5). -/

/-- Modelled from the spec: `MemoryStore::add`, whose body is missing from
`memory/store.rs`.  "Operations: add(event) … Pruning policy on add: drop
entries older than A, then while size > L drop oldest."  The queue holds
(event, received_at) pairs; the new event is appended with `received_at =
now` before pruning. -/
def memoryAdd {ε : Type} (queue : List (ε × Nat)) (maxAge maxLen : Nat)
    (e : ε) (now : Nat) : List (ε × Nat) :=
  let q1 := (queue ++ [(e, now)]).filter (fun p => decide (now - p.2 ≤ maxAge))
  q1.drop (q1.length - maxLen)

/-- Modelled from the spec: `MemoryStore::recent` (snapshot), whose body is
missing from `memory/store.rs`; returns a point-in-time copy of the queued
events. -/
def memorySnapshot {ε : Type} (queue : List (ε × Nat)) : List ε :=
  queue.map Prod.fst

/-! ### C5 — add then snapshot returns the added event -/

/-- **C5.** For every event `e`, calling `MemoryStore::add(e)` and then
taking a snapshot returns a sequence containing `e`: the new entry has age
zero, so the age bound `A` never drops it, and the length bound `L` drops
only older (earlier) entries as long as `L ≥ 1`. -/
theorem memory_add_then_snapshot_contains {ε : Type}
    (queue : List (ε × Nat)) (maxAge maxLen : Nat) (e : ε) (now : Nat)
    (hL : 1 ≤ maxLen) :
    e ∈ memorySnapshot (memoryAdd queue maxAge maxLen e now) := by
  simp only [memoryAdd]
  have hkeep : (fun p : ε × Nat => decide (now - p.2 ≤ maxAge)) (e, now) = true := by
    simp
  rw [List.filter_append]
  have hfe : List.filter (fun p : ε × Nat => decide (now - p.2 ≤ maxAge)) [(e, now)] =
      [(e, now)] := by
    simp
  rw [hfe]
  set l := List.filter (fun p : ε × Nat => decide (now - p.2 ≤ maxAge)) queue with hl
  have hlen : (l ++ [(e, now)]).length = l.length + 1 := by simp
  rw [hlen]
  have hdrop : (l ++ [(e, now)]).drop (l.length + 1 - maxLen) =
      l.drop (l.length + 1 - maxLen) ++ [(e, now)] :=
    List.drop_append_of_le_length (by omega)
  rw [hdrop]
  unfold memorySnapshot
  rw [List.map_append]
  exact List.mem_append_right _ (by simp)

/-- Witness for C5 at a concrete queue. -/
theorem memory_add_then_snapshot_contains_witness :
    42 ∈ memorySnapshot (memoryAdd [(7, 0), (9, 1)] 10 2 42 3) :=
  memory_add_then_snapshot_contains [(7, 0), (9, 1)] 10 2 42 3 (by omega)

/-! ## Per-task CPU sampling (`linnix-ai-ebpf-ebpf/src/program.rs` 235–277) -/

/-- The sentinel for unknown milli-percent fields.  The constant
`PERCENT_MILLI_UNKNOWN` lives in the `linnix-ai-ebpf-common` crate, which
is not among the provided sources; its value is modelled from the spec
glossary ("Sentinel (0xFFFF)"). -/
def PERCENT_MILLI_UNKNOWN : Nat := 0xFFFF

/-- The per-PID cache entry in the `TASK_STATS` map. -/
structure TaskStats where
  last_runtime_ns : Nat
  last_timestamp_ns : Nat
deriving DecidableEq, Repr

/-- `sample_cpu`: given the cached stats entry for this PID (if any), the
`sum_exec_runtime` reading (`none` when the BTF offsets are unavailable)
and the current time, return `cpu_pct_milli` and the updated cache entry.
All arithmetic is `u64`; the product `delta_runtime * 100_000` saturates at
`u64::MAX` via the explicit guard in the source. -/
def sample_cpu (prior : Option TaskStats) (runtimeReading : Option Nat)
    (now : Nat) : Nat × Option TaskStats :=
  match runtimeReading with
  | none => (PERCENT_MILLI_UNKNOWN, prior)
  | some runtime =>
    match prior with
    | none => (PERCENT_MILLI_UNKNOWN, some ⟨runtime, now⟩)
    | some entry =>
      if entry.last_timestamp_ns ≠ 0 ∧ now > entry.last_timestamp_ns ∧
          runtime ≥ entry.last_runtime_ns ∧
          now - entry.last_timestamp_ns > 0 then
        let delta_time := now - entry.last_timestamp_ns
        let delta_runtime := runtime - entry.last_runtime_ns
        let scaled_mul :=
          if delta_runtime > U64MAX / 100000 then U64MAX
          else delta_runtime * 100000
        (min (scaled_mul / delta_time) (PERCENT_MILLI_UNKNOWN - 1),
          some ⟨runtime, now⟩)
      else
        (PERCENT_MILLI_UNKNOWN, some ⟨runtime, now⟩)

/-! ### C8 — CPU sample: first sentinel, then scaled delta -/

/-- **C8 (counterexample).** The claim's formula
`delta_runtime * 100_000 / delta_wall` (clamped) disagrees with the code
when the product overflows `u64`: with a prior entry (runtime 0 at t = 1),
a runtime reading of 6·10^14 ns and `now = u64::MAX`, the code saturates
the product at `u64::MAX` and returns 1, while the claim's clamped exact
formula gives 3. -/
theorem sample_cpu_formula_cex :
    (sample_cpu (some ⟨0, 1⟩) (some 600000000000000) U64MAX).1 = 1 ∧
    min (600000000000000 * 100000 / (U64MAX - 1)) (PERCENT_MILLI_UNKNOWN - 1) = 3 ∧
    (1 : Nat) ≠ 3 := by
  refine ⟨by decide, by decide, by decide⟩

/-- **C8 (amended).** For every PID, the first CPU sample (no prior cache
entry, or no runtime reading) yields the sentinel; every subsequent sample
with a valid prior entry (nonzero stored timestamp, `now` strictly later,
runtime monotone) returns `delta_runtime * 100_000` — *saturating at
`u64::MAX`* — divided by `delta_wall` and clamped at sentinel − 1; and
`cpu_pct_milli` is always either the sentinel or in `[0, 99_999]`. -/
theorem sample_cpu_spec :
    (∀ rt now : Nat, (sample_cpu none (some rt) now).1 = PERCENT_MILLI_UNKNOWN) ∧
    (∀ (prior : Option TaskStats) (now : Nat),
      (sample_cpu prior none now).1 = PERCENT_MILLI_UNKNOWN) ∧
    (∀ (e : TaskStats) (rt now : Nat), e.last_timestamp_ns ≠ 0 →
      now > e.last_timestamp_ns → rt ≥ e.last_runtime_ns →
      (sample_cpu (some e) (some rt) now).1 =
        min ((if rt - e.last_runtime_ns > U64MAX / 100000 then U64MAX
              else (rt - e.last_runtime_ns) * 100000) /
             (now - e.last_timestamp_ns))
            (PERCENT_MILLI_UNKNOWN - 1)) ∧
    (∀ (prior : Option TaskStats) (rr : Option Nat) (now : Nat),
      (sample_cpu prior rr now).1 = PERCENT_MILLI_UNKNOWN ∨
        (sample_cpu prior rr now).1 ≤ 99999) := by
  refine ⟨fun rt now => rfl, ?_, ?_, ?_⟩
  · intro prior now
    cases prior <;> rfl
  · intro e rt now h1 h2 h3
    simp only [sample_cpu]
    rw [if_pos ⟨h1, h2, h3, by omega⟩]
  · intro prior rr now
    match rr with
    | none => exact Or.inl (by cases prior <;> rfl)
    | some rt =>
      match prior with
      | none => exact Or.inl rfl
      | some e =>
        simp only [sample_cpu]
        by_cases hc : e.last_timestamp_ns ≠ 0 ∧ now > e.last_timestamp_ns ∧
            rt ≥ e.last_runtime_ns ∧ now - e.last_timestamp_ns > 0
        · rw [if_pos hc]
          right
          have : min ((if rt - e.last_runtime_ns > U64MAX / 100000 then U64MAX
              else (rt - e.last_runtime_ns) * 100000) /
              (now - e.last_timestamp_ns)) (PERCENT_MILLI_UNKNOWN - 1) ≤
              PERCENT_MILLI_UNKNOWN - 1 := Nat.min_le_right _ _
          simp only [PERCENT_MILLI_UNKNOWN] at *
          omega
        · rw [if_neg hc]
          exact Or.inl rfl

/-- Witness for C8's amended theorem at a concrete valid prior entry. -/
theorem sample_cpu_spec_witness :
    (sample_cpu (some ⟨0, 1⟩) (some 2000) 3).1 =
      min ((if 2000 - 0 > U64MAX / 100000 then U64MAX else (2000 - 0) * 100000) /
        (3 - 1)) (PERCENT_MILLI_UNKNOWN - 1) :=
  sample_cpu_spec.2.2.1 ⟨0, 1⟩ 2000 3 (by decide) (by decide) (by decide)

/-! ## Block I/O derivation (`program.rs` 33–66, 92–119, 445–486, 588–653) -/

inductive EventType where
  | Fork
  | Exec
  | Exit
  | Net
  | FileIo
  | Syscall
  | BlockIo
  | PageFault
deriving DecidableEq, Repr

inductive BlockOp where
  | Queue
  | Issue
  | Complete
deriving DecidableEq, Repr

def BlockOp.code : BlockOp → Nat
  | .Queue => 0
  | .Issue => 1
  | .Complete => 2

def BYTES_PER_SECTOR : Nat := 512

def DEVICE_MAJOR_BITS : Nat := 12

def DEVICE_MINOR_BITS : Nat := 20

def DEVICE_MAJOR_MASK : Nat := (1 <<< DEVICE_MAJOR_BITS) - 1

def DEVICE_MINOR_MASK : Nat := (1 <<< DEVICE_MINOR_BITS) - 1

/-- `encode_block_dev`. -/
def encode_block_dev (dev : Nat) : Nat :=
  (((dev >>> DEVICE_MINOR_BITS) &&& DEVICE_MAJOR_MASK) <<< DEVICE_MINOR_BITS) |||
    (dev &&& DEVICE_MINOR_MASK)

/-- `block_bytes_from_sectors`. -/
def block_bytes_from_sectors (sectors : Nat) : Nat :=
  sectors * BYTES_PER_SECTOR

/-- The claim-relevant payload of a record submitted to the perf array
(`init_event` fills the remaining fields from the current task). -/
structure ActivityRecord where
  event_type : EventType
  ts_ns : Nat
  data : Nat
  data2 : Nat
  aux : Nat
  aux2 : Nat
deriving DecidableEq, Repr

/-- `emit_activity_event`: the shared emitter.  Its first filter returns 0
*without submitting* for Net, FileIo, Syscall and BlockIo event types; the
second (dead after the first) would drop zero-byte Net/FileIo/BlockIo
records; pid 0 is skipped.  Returns the submitted record, if any. -/
def emit_activity_event (et : EventType) (pid now data data2 aux aux2 : Nat) :
    Option ActivityRecord :=
  if et = .Net ∨ et = .FileIo ∨ et = .Syscall ∨ et = .BlockIo then none
  else if (et = .Net ∨ et = .FileIo ∨ et = .BlockIo) ∧ data = 0 then none
  else if pid = 0 then none
  else some ⟨et, now, data, data2, aux, aux2⟩

/-- `emit_block_event_common`: skip zero-sector requests, choose the byte
count (explicit non-zero override, else sectors × 512), encode the device
id, and hand off to `emit_activity_event` with `EventType::BlockIo`. -/
def emit_block_event_common (pid now : Nat) (op : BlockOp)
    (dev sector : Nat) (sectors : Nat) (bytesOverride : Option Nat) :
    Option ActivityRecord :=
  if sectors = 0 then none
  else
    let bytes := match bytesOverride with
      | some value => if value > 0 then value else block_bytes_from_sectors sectors
      | none => block_bytes_from_sectors sectors
    emit_activity_event .BlockIo pid now bytes sector op.code
      (encode_block_dev dev)

theorem shiftLeft_or_eq_add {a b n : Nat} (hb : b < 2 ^ n) :
    (a <<< n) ||| b = a <<< n + b := by
  apply Nat.eq_of_testBit_eq
  intro i
  rw [Nat.testBit_or, Nat.testBit_shiftLeft, Nat.shiftLeft_eq, Nat.mul_comm,
    Nat.testBit_mul_pow_two_add a hb i]
  by_cases h : i < n
  · rw [if_pos h]
    have hni : ¬ (n ≤ i) := by omega
    simp [hni]
  · rw [if_neg h]
    have hge : n ≤ i := by omega
    have hbz : b.testBit i = false :=
      Nat.testBit_lt_two_pow
        (lt_of_lt_of_le hb (Nat.pow_le_pow_right (by omega) hge))
    simp [hge, hbz]

/-! ### C9 — block records are derived but never emitted -/

/-- **C9 (counterexample).** A block-queue probe hit with 8 sectors (and
pid 1234) emits nothing: `emit_activity_event` filters out the BlockIo
event type before submitting, so no BlockIo record reaches the ring. -/
theorem block_io_not_emitted_cex :
    (8 : Nat) ≠ 0 ∧
    emit_block_event_common 1234 1000 .Queue 271581187 4096 8 none = none := by
  refine ⟨by decide, by decide⟩

/-- **C9 (amended).** For every block queue/issue/complete probe hit, the
producer *computes* a byte count that uses the explicit byte field when
present and non-zero and otherwise equals sectors × 512, and a device id
encoded as `((major & 0xFFF) << 20) | (minor & 0xFFFFF)` — but it emits no
BlockIo record at all: `emit_activity_event` returns without submitting
for the BlockIo event type. -/
theorem block_io_derivation :
    (∀ (pid now : Nat) (op : BlockOp) (dev sector sectors : Nat)
      (bo : Option Nat),
      emit_block_event_common pid now op dev sector sectors bo = none) ∧
    (∀ sectors : Nat, block_bytes_from_sectors sectors = sectors * 512) ∧
    (∀ major minor : Nat, major < 2 ^ 12 → minor < 2 ^ 20 →
      encode_block_dev ((major <<< 20) ||| minor) =
        (major <<< 20) ||| (minor &&& DEVICE_MINOR_MASK)) := by
  refine ⟨?_, fun sectors => rfl, ?_⟩
  · intro pid now op dev sector sectors bo
    by_cases hs : sectors = 0
    · simp [emit_block_event_common, hs]
    · simp [emit_block_event_common, hs, emit_activity_event]
  · intro major minor hmaj hmin
    have hdev : (major <<< 20) ||| minor = major * 2 ^ 20 + minor := by
      rw [shiftLeft_or_eq_add hmin, Nat.shiftLeft_eq]
    have hmask20 : DEVICE_MINOR_MASK = 2 ^ 20 - 1 := by decide
    have hmask12 : DEVICE_MAJOR_MASK = 2 ^ 12 - 1 := by decide
    have hminor : minor &&& DEVICE_MINOR_MASK = minor := by
      rw [hmask20, Nat.and_pow_two_sub_one_eq_mod, Nat.mod_eq_of_lt hmin]
    unfold encode_block_dev
    rw [hdev, hminor]
    have h1 : (major * 2 ^ 20 + minor) >>> DEVICE_MINOR_BITS = major := by
      show (major * 2 ^ 20 + minor) >>> 20 = major
      rw [Nat.shiftRight_eq_div_pow]
      rw [Nat.mul_comm, Nat.mul_add_div (by omega), Nat.div_eq_of_lt hmin]
      omega
    have h2 : (major * 2 ^ 20 + minor) &&& DEVICE_MINOR_MASK = minor := by
      rw [hmask20, Nat.and_pow_two_sub_one_eq_mod, Nat.mul_comm,
        Nat.mul_add_mod, Nat.mod_eq_of_lt hmin]
    rw [h1, h2]
    have h3 : major &&& DEVICE_MAJOR_MASK = major := by
      rw [hmask12, Nat.and_pow_two_sub_one_eq_mod, Nat.mod_eq_of_lt hmaj]
    rw [h3]
    rfl

/-- Witness for C9's amended theorem at a concrete device. -/
theorem block_io_derivation_witness :
    encode_block_dev ((8 <<< 20) ||| 3) = (8 <<< 20) ||| (3 &&& DEVICE_MINOR_MASK) :=
  block_io_derivation.2.2 8 3 (by omega) (by omega)

/-! ## Rule-engine event fan-in and the ExecRate / ZombieCount arms
(`alerts.rs` 564–716, 871)

The state carries the fields that the fork/exec/exit updates and the
`ExecRate` and `ZombieCount` arms read or write (`forks_by_ppid`,
`cpu_exceed` and `rss_exceed` are untouched by these arms and omitted). -/

structure RuleState where
  fork_events : List Nat
  exec_events : List Nat
  exec_start : List (Nat × Nat)
  exec_completions : List (Nat × Nat)
  active : List (String × Nat)

def emptyRuleState : RuleState := ⟨[], [], [], [], []⟩

inductive MEvent where
  | fork (pid ppid : Nat)
  | exec (pid : Nat)
  | exit (pid : Nat)
  | other
deriving DecidableEq, Repr

/-- The two detector variants at issue in this section. -/
inductive MDetector where
  | execRate (ratePerMin medianLifetime : Nat)
  | zombieCount (threshold duration : Nat)
deriving DecidableEq, Repr

structure MRule where
  name : String
  cooldown : Nat
  detector : MDetector

/-- `trim_completion_queue`. -/
def trim_completion_queue (queue : List (Nat × Nat)) (keepFor now : Nat) :
    List (Nat × Nat) :=
  queue.dropWhile (fun c => decide (now - c.1 > keepFor))

/-- The per-event state update at the top of `on_event` (Fork pushes and
trims `fork_events`; Exec pushes/trims `exec_events` and records
`exec_start`; Exit pops `exec_start` and records the completion). -/
def stateUpdate (st : RuleState) (ev : MEvent)
    (now forkKeep execKeep completionKeep : Nat) : RuleState :=
  match ev with
  | .fork _ _ =>
    { st with fork_events :=
        trim_instant_queue (st.fork_events ++ [now]) forkKeep now }
  | .exec pid =>
    { st with
      exec_events := trim_instant_queue (st.exec_events ++ [now]) execKeep now,
      exec_start := insertE st.exec_start pid now }
  | .exit pid =>
    match lookupE st.exec_start pid with
    | some start =>
      { st with
        exec_start := eraseE st.exec_start pid,
        exec_completions :=
          trim_completion_queue (st.exec_completions ++ [(now, now - start)])
            completionKeep now }
    | none => st
  | .other => st

def isExecEvent : MEvent → Bool
  | .exec _ => true
  | _ => false

def insertSorted (x : Nat) : List Nat → List Nat
  | [] => [x]
  | y :: ys => if x ≤ y then x :: y :: ys else y :: insertSorted x ys

/-- `sort_unstable` on the collected durations. -/
def sortNat : List Nat → List Nat
  | [] => []
  | x :: xs => insertSorted x (sortNat xs)

/-- The `Detector::ExecRate` arm of `on_event`: on an Exec event with
`exec_events.len() ≥ rate_per_min`, collect the second-granularity
lifetimes of completions in the last 60 s (newest first), and when the
median is `≤ median_lifetime`, call `emit_alert` (cooldown gate) and clear
`exec_events` and `exec_completions`. -/
def execRateEval (host name : String)
    (cooldown ratePerMin medianLifetime : Nat) (st : RuleState) (ev : MEvent)
    (now : Nat) : RuleState × List (String × Nat) :=
  if isExecEvent ev && decide (ratePerMin ≤ st.exec_events.length) then
    let durations := (st.exec_completions.reverse.takeWhile
        (fun c => decide (now - c.1 ≤ 60 * 1000000000))).map
      (fun c => c.2 / 1000000000)
    if durations.isEmpty then (st, [])
    else
      let sorted := sortNat durations
      let median := sorted.getD (durations.length / 2) 0
      if median ≤ medianLifetime then
        let gate := emit_alert_gate st.active (host ++ ":" ++ name) now
          (cooldownNs cooldown)
        ({ st with
            exec_events := ([]),
            exec_completions := ([]),
            active := gate.2 },
          if gate.1 then [(name, now)] else [])
      else (st, [])
  else (st, [])

/-- One rule's arm: `ExecRate` evaluates as above; `ZombieCount` is the
empty arm `Detector::ZombieCount { .. } => {}`. -/
def evalRule (host : String) (r : MRule) (st : RuleState) (ev : MEvent)
    (now : Nat) : RuleState × List (String × Nat) :=
  match r.detector with
  | .execRate rate medLife =>
    execRateEval host r.name r.cooldown rate medLife st ev now
  | .zombieCount _ _ => (st, [])

def evalRules (host : String) :
    List MRule → RuleState → MEvent → Nat → RuleState × List (String × Nat)
  | [], st, _, _ => (st, [])
  | r :: rest, st, ev, now =>
    let s1 := evalRule host r st ev now
    let s2 := evalRules host rest s1.1 ev now
    (s2.1, s1.2 ++ s2.2)

/-- The engine loop over a decoded event trace: state update, then the
rules in declaration order; collects all (rule, time) alert emissions. -/
def runEngine (host : String) (rules : List MRule)
    (forkKeep execKeep completionKeep : Nat) :
    RuleState → List (MEvent × Nat) → List (String × Nat)
  | _, [] => []
  | st, (ev, now) :: rest =>
    let st1 := stateUpdate st ev now forkKeep execKeep completionKeep
    let s2 := evalRules host rules st1 ev now
    s2.2 ++ runEngine host rules forkKeep execKeep completionKeep s2.1 rest

/-! ### C3 — ExecRate and ZombieCount inertness -/

/-- **C3 (counterexample).** An engine with the single rule
`ExecRate{rate_per_min = 1, median_lifetime = 0}` and the event sequence
Exec(1), Exit(1), Exec(2) — all at t = 0 — emits an alert on the third
event, so a rule whose detector is `ExecRate` is *not* inert. -/
theorem execRate_emits_cex :
    runEngine "h" [⟨"r", 60, .execRate 1 0⟩] 5000000000 60000000000
        60000000000 emptyRuleState
        [(.exec 1, 0), (.exit 1, 0), (.exec 2, 0)] = [("r", 0)] ∧
    [("r", 0)] ≠ ([] : List (String × Nat)) := by
  refine ⟨by decide, by decide⟩

/-- **C3 (amended).** A rule whose detector is `ZombieCount` never emits an
alert — its arm is an intentional no-op — but a rule whose detector is
`ExecRate` is evaluated (not inert): it can emit, as the concrete Exec /
Exit / Exec run shows. -/
theorem zombieCount_inert_execRate_not :
    (∀ (host name : String) (cooldown threshold duration fk ek ck : Nat)
      (st : RuleState) (events : List (MEvent × Nat)),
      runEngine host [⟨name, cooldown, .zombieCount threshold duration⟩]
        fk ek ck st events = []) ∧
    runEngine "h" [⟨"r2", 0, .execRate 1 5⟩] 5000000000 60000000000
        60000000000 emptyRuleState
        [(.exec 10, 0), (.exit 10, 0), (.exec 11, 0)] ≠ [] := by
  constructor
  · intro host name cooldown threshold duration fk ek ck st events
    induction events generalizing st with
    | nil => rfl
    | cons e rest ih =>
      obtain ⟨ev, now⟩ := e
      simp only [runEngine, evalRules, evalRule, List.nil_append]
      exact ih _
  · decide

/-! ## Lineage cache (`cognitod/src/runtime/lineage.rs`)

`LineageInner` holds the map `entries : child pid → (parent, recorded_at)`
and the insertion-order queue `order` of `(pid, recorded_at)` pairs.
`record_fork` inserts (replacing any previous entry for the child), pushes
the queue pair and purges; `lookup` purges and reads the map.  Both purge
loops are translated clause by clause; `Instant::duration_since` saturates
at zero, matching `Nat` subtraction. -/

structure LineageInner where
  entries : List (Nat × (Nat × Nat))
  order : List (Nat × Nat)

/-- The first purge loop: pop the front while it is stale (queue timestamp
differs from the map's), missing from the map, or matching but expired /
over capacity (in which case the map entry is removed too); stop at the
first matching, fresh, in-capacity front. -/
def purgeLoop1 (now ttl capacity : Nat) :
    List (Nat × Nat) → List (Nat × (Nat × Nat)) →
      List (Nat × Nat) × List (Nat × (Nat × Nat))
  | [], es => ([], es)
  | f :: rest, es =>
    match lookupE es f.1 with
    | some pv =>
      if pv.2 = f.2 then
        if now - f.2 > ttl ∨ es.length > capacity then
          purgeLoop1 now ttl capacity rest (eraseE es f.1)
        else (f :: rest, es)
      else purgeLoop1 now ttl capacity rest es
    | none => purgeLoop1 now ttl capacity rest es

/-- The second purge loop: while the map is over capacity, pop the front;
if it matches the map remove that entry and continue, otherwise stop (the
popped pair is consumed either way). -/
def purgeLoop2 (capacity : Nat) :
    List (Nat × Nat) → List (Nat × (Nat × Nat)) →
      List (Nat × Nat) × List (Nat × (Nat × Nat))
  | [], es => ([], es)
  | f :: rest, es =>
    if es.length ≤ capacity then (f :: rest, es)
    else
      match lookupE es f.1 with
      | some pv =>
        if pv.2 = f.2 then purgeLoop2 capacity rest (eraseE es f.1)
        else (rest, es)
      | none => (rest, es)

/-- `LineageInner::purge`. -/
def purge (now ttl capacity : Nat) (s : LineageInner) : LineageInner :=
  let r1 := purgeLoop1 now ttl capacity s.order s.entries
  let r2 := purgeLoop2 capacity r1.1 r1.2
  ⟨r2.2, r2.1⟩

/-- `LineageCache::record_fork`. -/
def record_fork (now ttl capacity child parent : Nat) (s : LineageInner) :
    LineageInner :=
  purge now ttl capacity
    ⟨insertE s.entries child (parent, now), s.order ++ [(child, now)]⟩

/-- `LineageCache::lookup`: purge, then read the parent from the map. -/
def lineage_lookup (now ttl capacity pid : Nat) (s : LineageInner) :
    Option Nat × LineageInner :=
  let s' := purge now ttl capacity s
  ((lookupE s'.entries pid).map Prod.fst, s')

/-- Every map entry's queue pair is present in the queue. -/
def entriesInOrder (o : List (Nat × Nat)) (es : List (Nat × (Nat × Nat))) :
    Prop :=
  ∀ pid pv, lookupE es pid = some pv → (pid, pv.2) ∈ o

/-- Well-formedness of a cache state, as maintained by the public
operations: unique map keys, every map entry mirrored in the queue, queue
timestamps non-decreasing (Instants are monotone) and bounded by the
`horizon` (the time of the last operation), map size within capacity, and
a front pair (if any) that matches the map — the shape `purge` always
leaves behind. -/
structure LineageWF (s : LineageInner) (capacity horizon : Nat) : Prop where
  nodup : (s.entries.map Prod.fst).Nodup
  inOrder : entriesInOrder s.order s.entries
  sorted : s.order.Pairwise (fun a b => a.2 ≤ b.2)
  bounded : ∀ p ∈ s.order, p.2 ≤ horizon
  size_le : s.entries.length ≤ capacity
  front_ok : ∀ f rest, s.order = f :: rest →
    ∃ par, lookupE s.entries f.1 = some (par, f.2)

section PurgeLemmas

variable {now ttl capacity : Nat}

/-- Entries only disappear during the first purge loop; surviving lookups
were already present. -/
theorem purgeLoop1_lookup_sub :
    ∀ (o : List (Nat × Nat)) (es : List (Nat × (Nat × Nat))) (pid : Nat)
      (pv : Nat × Nat),
      lookupE (purgeLoop1 now ttl capacity o es).2 pid = some pv →
      lookupE es pid = some pv := by
  intro o
  induction o with
  | nil => intro es pid pv h; exact h
  | cons f rest ih =>
    intro es pid pv h
    rw [purgeLoop1] at h
    split at h
    next pv0 hl =>
      split at h
      next hm =>
        split at h
        next hcond =>
          have h2 := ih _ _ _ h
          by_cases hpid : pid = f.1
          · rw [hpid, lookupE_erase_self] at h2; cases h2
          · rw [lookupE_erase_ne hpid] at h2; exact h2
        next hcond => exact h
      next hm => exact ih _ _ _ h
    next hl => exact ih _ _ _ h

theorem purgeLoop1_nodup :
    ∀ (o : List (Nat × Nat)) (es : List (Nat × (Nat × Nat))),
      (es.map Prod.fst).Nodup →
      (((purgeLoop1 now ttl capacity o es).2).map Prod.fst).Nodup := by
  intro o
  induction o with
  | nil => intro es h; exact h
  | cons f rest ih =>
    intro es h
    rw [purgeLoop1]
    split
    next pv0 hl =>
      split
      next hm =>
        split
        next hcond => exact ih _ (eraseE_nodup _ h)
        next hcond => exact h
      next hm => exact ih _ h
    next hl => exact ih _ h

theorem purgeLoop1_suffix :
    ∀ (o : List (Nat × Nat)) (es : List (Nat × (Nat × Nat))),
      (purgeLoop1 now ttl capacity o es).1 <:+ o := by
  intro o
  induction o with
  | nil => intro es; exact List.suffix_refl _
  | cons f rest ih =>
    intro es
    rw [purgeLoop1]
    split
    next pv0 hl =>
      split
      next hm =>
        split
        next hcond => exact (ih _).trans (List.suffix_cons f rest)
        next hcond => exact List.suffix_refl _
      next hm => exact (ih _).trans (List.suffix_cons f rest)
    next hl => exact (ih _).trans (List.suffix_cons f rest)

/-- The mirror invariant is preserved: after the loop every surviving entry
still has its queue pair in the surviving queue. -/
theorem purgeLoop1_inOrder :
    ∀ (o : List (Nat × Nat)) (es : List (Nat × (Nat × Nat))),
      (es.map Prod.fst).Nodup → entriesInOrder o es →
      entriesInOrder (purgeLoop1 now ttl capacity o es).1
        (purgeLoop1 now ttl capacity o es).2 := by
  intro o
  induction o with
  | nil => intro es hnd hin; exact hin
  | cons f rest ih =>
    intro es hnd hin
    rw [purgeLoop1]
    split
    next pv0 hl =>
      split
      next hm =>
        split
        next hcond =>
          refine ih _ (eraseE_nodup _ hnd) ?_
          intro pid pv hlk
          by_cases hpid : pid = f.1
          · rw [hpid, lookupE_erase_self] at hlk; cases hlk
          · rw [lookupE_erase_ne hpid] at hlk
            rcases List.mem_cons.mp (hin pid pv hlk) with heq | hmem
            · exact absurd (congrArg Prod.fst heq) hpid
            · exact hmem
        next hcond => exact hin
      next hm =>
        refine ih _ hnd ?_
        intro pid pv hlk
        rcases List.mem_cons.mp (hin pid pv hlk) with heq | hmem
        · have h1 : pid = f.1 := congrArg Prod.fst heq
          have h2 : pv.2 = f.2 := by
            have h3 := congrArg Prod.snd heq
            simpa using h3
          rw [h1, hl] at hlk
          obtain rfl : pv0 = pv := by injection hlk
          exact absurd h2 hm
        · exact hmem
    next hl =>
      refine ih _ hnd ?_
      intro pid pv hlk
      rcases List.mem_cons.mp (hin pid pv hlk) with heq | hmem
      · have h1 : pid = f.1 := congrArg Prod.fst heq
        rw [h1, hl] at hlk
        cases hlk
      · exact hmem

theorem entries_eq_nil_of_inOrder_nil {es : List (Nat × (Nat × Nat))}
    (hnd : (es.map Prod.fst).Nodup) (hin : entriesInOrder [] es) :
    es = [] := by
  cases es with
  | nil => rfl
  | cons e es' =>
    have hmem : (e.1, e.2) ∈ e :: es' := by
      rw [Prod.mk.eta]
      exact List.mem_cons_self e es'
    have hlk := mem_lookupE hnd hmem
    exact absurd (hin e.1 e.2 hlk) (List.not_mem_nil _)

theorem inOrder_tail_of_erase {f : Nat × Nat} {rest : List (Nat × Nat)}
    {es : List (Nat × (Nat × Nat))}
    (hin : entriesInOrder (f :: rest) es) :
    entriesInOrder rest (eraseE es f.1) := by
  intro pid pv hlk
  by_cases hpid : pid = f.1
  · rw [hpid, lookupE_erase_self] at hlk; cases hlk
  · rw [lookupE_erase_ne hpid] at hlk
    rcases List.mem_cons.mp (hin pid pv hlk) with heq | hmem
    · exact absurd (congrArg Prod.fst heq) hpid
    · exact hmem

theorem inOrder_tail_of_stale {f : Nat × Nat} {rest : List (Nat × Nat)}
    {es : List (Nat × (Nat × Nat))} {pv0 : Nat × Nat}
    (hl : lookupE es f.1 = some pv0) (hm : ¬ pv0.2 = f.2)
    (hin : entriesInOrder (f :: rest) es) : entriesInOrder rest es := by
  intro pid pv hlk
  rcases List.mem_cons.mp (hin pid pv hlk) with heq | hmem
  · have h1 : pid = f.1 := congrArg Prod.fst heq
    have h2 : pv.2 = f.2 := by
      have h3 := congrArg Prod.snd heq
      simpa using h3
    rw [h1, hl] at hlk
    obtain rfl : pv0 = pv := by injection hlk
    exact absurd h2 hm
  · exact hmem

theorem inOrder_tail_of_dead {f : Nat × Nat} {rest : List (Nat × Nat)}
    {es : List (Nat × (Nat × Nat))}
    (hl : lookupE es f.1 = none) (hin : entriesInOrder (f :: rest) es) :
    entriesInOrder rest es := by
  intro pid pv hlk
  rcases List.mem_cons.mp (hin pid pv hlk) with heq | hmem
  · have h1 : pid = f.1 := congrArg Prod.fst heq
    rw [h1, hl] at hlk
    cases hlk
  · exact hmem

/-- On well-mirrored states the first loop already enforces the capacity
bound: it either stops at a front witnessing `len ≤ capacity` or consumes
the queue (and with it, every entry). -/
theorem purgeLoop1_length :
    ∀ (o : List (Nat × Nat)) (es : List (Nat × (Nat × Nat))),
      (es.map Prod.fst).Nodup → entriesInOrder o es →
      (purgeLoop1 now ttl capacity o es).2.length ≤ capacity := by
  intro o
  induction o with
  | nil =>
    intro es hnd hin
    have h := entries_eq_nil_of_inOrder_nil hnd hin
    subst h
    simp [purgeLoop1]
  | cons f rest ih =>
    intro es hnd hin
    rw [purgeLoop1]
    split
    next pv0 hl =>
      split
      next hm =>
        split
        next hcond =>
          exact ih _ (eraseE_nodup _ hnd) (inOrder_tail_of_erase hin)
        next hcond =>
          push_neg at hcond
          exact hcond.2
      next hm => exact ih _ hnd (inOrder_tail_of_stale hl hm hin)
    next hl => exact ih _ hnd (inOrder_tail_of_dead hl hin)

/-- Every entry surviving the first loop is at most TTL old. -/
theorem purgeLoop1_fresh :
    ∀ (o : List (Nat × Nat)) (es : List (Nat × (Nat × Nat))),
      (es.map Prod.fst).Nodup → entriesInOrder o es →
      o.Pairwise (fun a b => a.2 ≤ b.2) →
      ∀ pid pv, lookupE (purgeLoop1 now ttl capacity o es).2 pid = some pv →
        now - pv.2 ≤ ttl := by
  intro o
  induction o with
  | nil =>
    intro es hnd hin _ pid pv h
    have he := entries_eq_nil_of_inOrder_nil hnd hin
    subst he
    simp [purgeLoop1, lookupE] at h
  | cons f rest ih =>
    intro es hnd hin hsorted pid pv h
    have hsrest := (List.pairwise_cons.mp hsorted).2
    have hscross := (List.pairwise_cons.mp hsorted).1
    rw [purgeLoop1] at h
    split at h
    next pv0 hl =>
      split at h
      next hm =>
        split at h
        next hcond =>
          exact ih _ (eraseE_nodup _ hnd) (inOrder_tail_of_erase hin) hsrest
            pid pv h
        next hcond =>
          push_neg at hcond
          rcases List.mem_cons.mp (hin pid pv h) with heq | hmem
          · have h2 : pv.2 = f.2 := by
              have h3 := congrArg Prod.snd heq
              simpa using h3
            omega
          · have h4 : f.2 ≤ pv.2 := hscross (pid, pv.2) hmem
            omega
      next hm =>
        exact ih _ hnd (inOrder_tail_of_stale hl hm hin) hsrest pid pv h
    next hl => exact ih _ hnd (inOrder_tail_of_dead hl hin) hsrest pid pv h

/-- A purge-result pair whose front (if any) matches its map. -/
def pairFrontOk
    (r : List (Nat × Nat) × List (Nat × (Nat × Nat))) : Prop :=
  ∀ f rest, r.1 = f :: rest → ∃ par, lookupE r.2 f.1 = some (par, f.2)

/-- The pair at the front of the surviving queue matches the surviving
map (this is the shape the break condition of the loop leaves). -/
theorem purgeLoop1_front :
    ∀ (o : List (Nat × Nat)) (es : List (Nat × (Nat × Nat))),
      pairFrontOk (purgeLoop1 now ttl capacity o es) := by
  intro o
  induction o with
  | nil =>
    intro es f rest h
    simp [purgeLoop1] at h
  | cons f0 rest0 ih =>
    intro es
    rw [purgeLoop1]
    split
    next pv0 hl =>
      split
      next hm =>
        split
        next hcond => exact ih _
        next hcond =>
          intro f rest h
          have h' : f0 :: rest0 = f :: rest := h
          injection h' with h1 h2
          subst h1
          subst h2
          refine ⟨pv0.1, ?_⟩
          show lookupE es f0.1 = some (pv0.1, f0.2)
          rw [hl, ← hm, Prod.mk.eta]
      next hm => exact ih _
    next hl => exact ih _

/-- Survival through the first loop when the map is within capacity: an
entry that is fresh is removed neither by expiry nor by capacity. -/
theorem purgeLoop1_keep :
    ∀ (o : List (Nat × Nat)) (es : List (Nat × (Nat × Nat))) (c p tc : Nat),
      (es.map Prod.fst).Nodup →
      lookupE es c = some (p, tc) → now - tc ≤ ttl →
      es.length ≤ capacity →
      lookupE (purgeLoop1 now ttl capacity o es).2 c = some (p, tc) := by
  intro o
  induction o with
  | nil => intro es c p tc _ hlk _ _; exact hlk
  | cons f rest ih =>
    intro es c p tc hnd hlk hfresh hlen
    rw [purgeLoop1]
    split
    next pv0 hl =>
      split
      next hm =>
        split
        next hcond =>
          have hnotover : ¬ es.length > capacity := by omega
          have hexp : now - f.2 > ttl := hcond.resolve_right hnotover
          have hfc : f.1 ≠ c := by
            intro he
            rw [he, hlk] at hl
            obtain rfl : (p, tc) = pv0 := by injection hl
            simp only at hm
            omega
          refine ih _ c p tc (eraseE_nodup _ hnd) ?_ hfresh ?_
          · rw [lookupE_erase_ne (fun hc => hfc hc.symm)]
            exact hlk
          · exact le_trans (eraseE_length_le es f.1) hlen
        next hcond => exact hlk
      next hm => exact ih _ c p tc hnd hlk hfresh hlen
    next hl => exact ih _ c p tc hnd hlk hfresh hlen

/-- Survival through the first loop when the map is exactly one over
capacity and the front is a matching pair for a *different* pid: the
front's removal restores the capacity bound, after which `purgeLoop1_keep`
applies. -/
theorem purgeLoop1_keep_front :
    ∀ (f : Nat × Nat) (rest : List (Nat × Nat))
      (es : List (Nat × (Nat × Nat))) (c p tc : Nat),
      (es.map Prod.fst).Nodup →
      lookupE es c = some (p, tc) → now - tc ≤ ttl →
      es.length = capacity + 1 →
      (∃ par, lookupE es f.1 = some (par, f.2)) →
      f.1 ≠ c →
      lookupE (purgeLoop1 now ttl capacity (f :: rest) es).2 c =
        some (p, tc) := by
  intro f rest es c p tc hnd hlk hfresh hlen hfront hfc
  obtain ⟨par, hl⟩ := hfront
  rw [purgeLoop1]
  split
  next pv0 hl0 =>
    have hpv : pv0 = (par, f.2) := by
      rw [hl] at hl0
      injection hl0 with h1
      exact h1.symm
    split
    next hm =>
      split
      next hcond =>
        refine purgeLoop1_keep _ _ c p tc (eraseE_nodup _ hnd) ?_ hfresh ?_
        · rw [lookupE_erase_ne (fun hc => hfc hc.symm)]
          exact hlk
        · have := eraseE_length_of_mem
            (show (lookupE es f.1).isSome from by rw [hl]; rfl)
          omega
      next hcond => exact absurd (Or.inr (by omega)) hcond
    next hm =>
      exact absurd (by rw [hpv]) hm
  next hl0 =>
    rw [hl0] at hl
    cases hl

theorem purgeLoop2_of_le :
    ∀ (o : List (Nat × Nat)) (es : List (Nat × (Nat × Nat))),
      es.length ≤ capacity → purgeLoop2 capacity o es = (o, es) := by
  intro o es h
  cases o with
  | nil => rfl
  | cons f rest => rw [purgeLoop2, if_pos h]

/-- On well-mirrored states the second loop is a no-op, so `purge` is the
first loop. -/
theorem purge_eq (s : LineageInner)
    (hnd : (s.entries.map Prod.fst).Nodup)
    (hin : entriesInOrder s.order s.entries) :
    purge now ttl capacity s =
      ⟨(purgeLoop1 now ttl capacity s.order s.entries).2,
        (purgeLoop1 now ttl capacity s.order s.entries).1⟩ := by
  simp only [purge]
  rw [purgeLoop2_of_le _ _ (purgeLoop1_length _ _ hnd hin)]

end PurgeLemmas

theorem lineageWF_empty (capacity : Nat) : LineageWF ⟨[], []⟩ capacity 0 := by
  refine ⟨by simp, ?_, by simp, by simp, by simp, ?_⟩
  · intro pid pv h
    cases h
  · intro f rest h
    cases h

/-- `purge` on a well-mirrored state: the result is well-formed at the
purge time, and every surviving entry is fresh and was already present. -/
theorem purge_spec (now ttl capacity horizon : Nat) (s : LineageInner)
    (hnd : (s.entries.map Prod.fst).Nodup)
    (hin : entriesInOrder s.order s.entries)
    (hsorted : s.order.Pairwise (fun a b => a.2 ≤ b.2))
    (hbound : ∀ p ∈ s.order, p.2 ≤ horizon) (hhor : horizon ≤ now) :
    LineageWF (purge now ttl capacity s) capacity now ∧
    (∀ pid pv, lookupE (purge now ttl capacity s).entries pid = some pv →
      now - pv.2 ≤ ttl ∧ lookupE s.entries pid = some pv) := by
  rw [purge_eq s hnd hin]
  constructor
  · refine ⟨purgeLoop1_nodup _ _ hnd, purgeLoop1_inOrder _ _ hnd hin, ?_, ?_,
      purgeLoop1_length _ _ hnd hin, purgeLoop1_front _ _⟩
    · exact hsorted.sublist (purgeLoop1_suffix _ _).sublist
    · intro p hp
      exact le_trans
        (hbound p ((purgeLoop1_suffix _ _).sublist.subset hp)) hhor
  · intro pid pv h
    exact ⟨purgeLoop1_fresh _ _ hnd hin hsorted pid pv h,
      purgeLoop1_lookup_sub _ _ pid pv h⟩

/-- The pre-purge state built by `record_fork` (insert + queue push) keeps
the mirror, sortedness and boundedness facts. -/
theorem recordFork_pre (now capacity horizon child parent : Nat)
    (s : LineageInner) (hwf : LineageWF s capacity horizon)
    (hhor : horizon ≤ now) :
    ((insertE s.entries child (parent, now)).map Prod.fst).Nodup ∧
    entriesInOrder (s.order ++ [(child, now)])
      (insertE s.entries child (parent, now)) ∧
    (s.order ++ [(child, now)]).Pairwise (fun a b => a.2 ≤ b.2) ∧
    (∀ p ∈ s.order ++ [(child, now)], p.2 ≤ now) := by
  refine ⟨insertE_nodup _ hwf.nodup, ?_, ?_, ?_⟩
  · intro pid pv hlk
    by_cases hp : pid = child
    · subst hp
      rw [lookupE_insert_self] at hlk
      obtain rfl : (parent, now) = pv := by injection hlk
      exact List.mem_append_right _ (by simp)
    · rw [lookupE_insert_ne _ _ hp] at hlk
      exact List.mem_append_left _ (hwf.inOrder pid pv hlk)
  · rw [List.pairwise_append]
    refine ⟨hwf.sorted, List.pairwise_singleton _ _, ?_⟩
    intro a ha b hb
    rw [List.mem_singleton] at hb
    subst hb
    exact le_trans (hwf.bounded a ha) hhor
  · intro p hp
    rcases List.mem_append.mp hp with h | h
    · exact le_trans (hwf.bounded p h) hhor
    · rw [List.mem_singleton] at h
      subst h
      exact le_refl _

/-- `record_fork` from a well-formed state: the result is well-formed at
the call time and every entry is fresh. -/
theorem recordFork_state_spec (now ttl capacity child parent horizon : Nat)
    (s : LineageInner) (hwf : LineageWF s capacity horizon)
    (hhor : horizon ≤ now) :
    LineageWF (record_fork now ttl capacity child parent s) capacity now ∧
    (∀ pid pv,
      lookupE (record_fork now ttl capacity child parent s).entries pid =
        some pv → now - pv.2 ≤ ttl) := by
  obtain ⟨hnd1, hin1, hsort1, hbound1⟩ :=
    recordFork_pre now capacity horizon child parent s hwf hhor
  have h := purge_spec now ttl capacity now
    ⟨insertE s.entries child (parent, now), s.order ++ [(child, now)]⟩
    hnd1 hin1 hsort1 hbound1 (le_refl now)
  exact ⟨h.1, fun pid pv hlk => (h.2 pid pv hlk).1⟩

/-- The freshly inserted child survives `record_fork`'s own purge (given
capacity ≥ 1): removals happen only at matching queue fronts, the child's
pair is fresh, and any over-capacity removal hits the pre-existing
matching front first, which cannot be the child. -/
theorem recordFork_keeps_child (now ttl capacity child parent horizon : Nat)
    (s : LineageInner) (hwf : LineageWF s capacity horizon)
    (hhor : horizon ≤ now) (hcap : 1 ≤ capacity) :
    lookupE (record_fork now ttl capacity child parent s).entries child =
      some (parent, now) := by
  obtain ⟨hnd1, hin1, hsort1, hbound1⟩ :=
    recordFork_pre now capacity horizon child parent s hwf hhor
  unfold record_fork
  rw [purge_eq _ hnd1 hin1]
  show lookupE (purgeLoop1 now ttl capacity (s.order ++ [(child, now)])
    (insertE s.entries child (parent, now))).2 child = some (parent, now)
  by_cases hpresent : (lookupE s.entries child).isSome
  · refine purgeLoop1_keep _ _ child parent now hnd1
      (lookupE_insert_self ..) (by omega) ?_
    rw [insertE_length_of_present _ hpresent]
    exact hwf.size_le
  · by_cases hroom : s.entries.length + 1 ≤ capacity
    · refine purgeLoop1_keep _ _ child parent now hnd1
        (lookupE_insert_self ..) (by omega) ?_
      rw [insertE_length_of_absent _ hpresent]
      exact hroom
    · have hlen : s.entries.length = capacity := by
        have := hwf.size_le
        omega
      cases horder : s.order with
      | nil =>
        exfalso
        have hin0 : entriesInOrder [] s.entries := by
          rw [← horder]
          exact hwf.inOrder
        have := entries_eq_nil_of_inOrder_nil hwf.nodup hin0
        rw [this] at hlen
        simp at hlen
        omega
      | cons f rest =>
        obtain ⟨par0, hfl⟩ := hwf.front_ok f rest horder
        have hfc : f.1 ≠ child := by
          intro he
          rw [he] at hfl
          exact hpresent (by rw [hfl]; rfl)
        refine purgeLoop1_keep_front f (rest ++ [(child, now)]) _ child
          parent now hnd1 (lookupE_insert_self ..) (by omega) ?_ ?_ hfc
        · rw [insertE_length_of_absent _ hpresent, hlen]
        · refine ⟨par0, ?_⟩
          rw [lookupE_insert_ne _ _ hfc]
          exact hfl

/-! ### C4 — lineage cache bounds and freshness -/

/-- **C4.** After any public `LineageCache` operation (`record_fork` or
`lookup`) returns, the map holds at most `capacity` entries and every
remaining entry is at most TTL old; `lookup` never returns an entry that
is expired or was evicted for capacity, even in the presence of stale
queue entries caused by re-inserting the same child PID.  Stated as: the
empty cache is well-formed, and from any well-formed state each operation
yields a map of size ≤ capacity whose entries all have age ≤ TTL (and a
well-formed state again); a successful `lookup` is backed by an entry of
age ≤ TTL in the purged map. -/
theorem lineage_cache_invariants :
    (∀ capacity, LineageWF ⟨[], []⟩ capacity 0) ∧
    (∀ (now ttl capacity child parent horizon : Nat) (s : LineageInner),
      LineageWF s capacity horizon → horizon ≤ now →
      (record_fork now ttl capacity child parent s).entries.length ≤
        capacity ∧
      (∀ pid pv,
        lookupE (record_fork now ttl capacity child parent s).entries pid =
          some pv → now - pv.2 ≤ ttl) ∧
      LineageWF (record_fork now ttl capacity child parent s) capacity now) ∧
    (∀ (now ttl capacity pid horizon : Nat) (s : LineageInner),
      LineageWF s capacity horizon → horizon ≤ now →
      (lineage_lookup now ttl capacity pid s).2.entries.length ≤ capacity ∧
      (∀ q pv,
        lookupE (lineage_lookup now ttl capacity pid s).2.entries q =
          some pv → now - pv.2 ≤ ttl) ∧
      LineageWF (lineage_lookup now ttl capacity pid s).2 capacity now ∧
      (∀ par, (lineage_lookup now ttl capacity pid s).1 = some par →
        ∃ ts, lookupE (lineage_lookup now ttl capacity pid s).2.entries pid =
          some (par, ts) ∧ now - ts ≤ ttl)) := by
  refine ⟨lineageWF_empty, ?_, ?_⟩
  · intro now ttl capacity child parent horizon s hwf hhor
    obtain ⟨hwf', hfresh⟩ :=
      recordFork_state_spec now ttl capacity child parent horizon s hwf hhor
    exact ⟨hwf'.size_le, hfresh, hwf'⟩
  · intro now ttl capacity pid horizon s hwf hhor
    have hps := purge_spec now ttl capacity horizon s hwf.nodup hwf.inOrder
      hwf.sorted hwf.bounded hhor
    have h2 : (lineage_lookup now ttl capacity pid s).2 =
        purge now ttl capacity s := rfl
    refine ⟨?_, ?_, ?_, ?_⟩
    · rw [h2]
      exact hps.1.size_le
    · rw [h2]
      intro q pv h
      exact (hps.2 q pv h).1
    · rw [h2]
      exact hps.1
    · intro par hpar
      have h1 : (lineage_lookup now ttl capacity pid s).1 =
          (lookupE (purge now ttl capacity s).entries pid).map Prod.fst := rfl
      rw [h1] at hpar
      cases hlk : lookupE (purge now ttl capacity s).entries pid with
      | none => rw [hlk] at hpar; cases hpar
      | some pv =>
        rw [hlk] at hpar
        obtain rfl : pv.1 = par := by injection hpar
        refine ⟨pv.2, ?_, (hps.2 pid pv hlk).1⟩
        rw [h2, Prod.mk.eta]
        exact hlk

/-- Witness for C4 at a concrete operation from the empty cache. -/
theorem lineage_cache_invariants_witness :
    (record_fork 5 60 8192 1 0 ⟨[], []⟩).entries.length ≤ 8192 :=
  (lineage_cache_invariants.2.1 5 60 8192 1 0 0 ⟨[], []⟩
    (lineage_cache_invariants.1 8192) (by omega)).1

/-! ### C7 — record_fork then lookup within TTL -/

/-- **C7.** For every child PID `c` and parent PID `p`, `record_fork(c, p)`
immediately followed by `lookup(c)` within the TTL returns `Some(p)`.
Hypotheses: the cache state is well-formed (as all reachable states are),
Instants are monotone, the lookup happens within TTL of the record, and
the configured capacity is at least 1 (a zero-capacity cache retains
nothing). -/
theorem record_fork_then_lookup
    (now now2 ttl capacity child parent horizon : Nat) (s : LineageInner)
    (hwf : LineageWF s capacity horizon) (hhor : horizon ≤ now)
    (hle : now ≤ now2) (httl : now2 - now ≤ ttl) (hcap : 1 ≤ capacity) :
    (lineage_lookup now2 ttl capacity child
      (record_fork now ttl capacity child parent s)).1 = some parent := by
  have hkeep := recordFork_keeps_child now ttl capacity child parent horizon
    s hwf hhor hcap
  obtain ⟨hwf2, -⟩ :=
    recordFork_state_spec now ttl capacity child parent horizon s hwf hhor
  have h1 : (lineage_lookup now2 ttl capacity child
      (record_fork now ttl capacity child parent s)).1 =
      (lookupE (purge now2 ttl capacity
        (record_fork now ttl capacity child parent s)).entries child).map
        Prod.fst := rfl
  rw [h1, purge_eq _ hwf2.nodup hwf2.inOrder]
  have hsurv := @purgeLoop1_keep now2 ttl capacity
    (record_fork now ttl capacity child parent s).order
    (record_fork now ttl capacity child parent s).entries
    child parent now hwf2.nodup hkeep httl hwf2.size_le
  simp [hsurv]

/-- Witness for C7 from the empty cache at concrete times. -/
theorem record_fork_then_lookup_witness :
    (lineage_lookup 1 60 8192 7 (record_fork 0 60 8192 7 3 ⟨[], []⟩)).1 =
      some 3 :=
  record_fork_then_lookup 0 1 60 8192 7 3 0 ⟨[], []⟩ (lineageWF_empty 8192)
    (by omega) (by omega) (by omega) (by omega)

end Linnix
